import Mathlib

/-!
Verification of `libc-print` (`src/lib.rs`): an allocation-free
formatted-output library writing to the OS standard output / standard error
descriptors through `libc::write`.

Shallow embedding conventions:
* Bytes are `Nat`; a Rust `&str` / `&[u8]` is a `List Nat` of its bytes.
* The OS `write` call is external.  Its behaviour, after `libc_write`
  normalizes it (`usize::try_from(..).ok()`), is modelled as an oracle
  `prim : Nat → List Nat → Option Nat`: for the `i`-th primitive call of a
  run, given the requested byte suffix, it yields `some n` ("n bytes
  accepted") or `none` ("error").
* The retry loop of `__libc_println` is embedded with explicit fuel
  (structural recursion); the top-level entry supplies fuel `msg.length`,
  which is proved sufficient (the loop makes at most `msg.length` calls,
  since each continuing iteration strictly advances the cursor).
* A run records, in `SinkRun`, the sequence of `libc_write` calls issued
  (handle and suffix passed), the bytes the primitive accepted in order
  (`sent`), and the final cursor (`written`).
-/

namespace LibcPrint

/-- `pub const __LIBC_NEWLINE: &str = "\n";` as bytes. -/
def __LIBC_NEWLINE : List Nat := [10]

/-- `pub const __LIBC_STDOUT: i32 = 1;` -/
def __LIBC_STDOUT : Int := 1

/-- `pub const __LIBC_STDERR: i32 = 2;` -/
def __LIBC_STDERR : Int := 2

/-- `pub struct __LibCWriter(i32);` — a sink instance is just a handle. -/
structure __LibCWriter where
  handle : Int
deriving DecidableEq

/-- `__LibCWriter::new(handle)` -/
def __LibCWriter.new (handle : Int) : __LibCWriter := ⟨handle⟩

/-- Observable record of one `__libc_println` invocation:
`calls` is the list of `libc_write` invocations (handle, suffix passed),
`sent` the bytes the primitive accepted, concatenated in order,
`written` the final value of the loop cursor. -/
structure SinkRun where
  calls : List (Int × List Nat)
  sent : List Nat
  written : Nat
deriving DecidableEq

/-- The `while written < msg.len()` loop of `__libc_println`, with explicit
fuel.  `i` is the index of the next primitive call (threaded through so an
oracle can vary per call), `written` the cursor.  Each iteration issues
`libc_write(handle, &msg[written..])`; `None | Some(0)` breaks the loop
("ignore errors"), `Some(res)` advances the cursor by `res`. -/
def sinkLoop (prim : Nat → List Nat → Option Nat) (handle : Int) (msg : List Nat) :
    Nat → Nat → Nat → SinkRun
  | _, written, 0 => ⟨[], [], written⟩
  | i, written, fuel + 1 =>
    if written < msg.length then
      match prim i (msg.drop written) with
      | none => ⟨[(handle, msg.drop written)], [], written⟩
      | some 0 => ⟨[(handle, msg.drop written)], [], written⟩
      | some (r + 1) =>
        let rest := sinkLoop prim handle msg (i + 1) (written + (r + 1)) fuel
        ⟨(handle, msg.drop written) :: rest.calls,
          (msg.drop written).take (r + 1) ++ rest.sent, rest.written⟩
    else ⟨[], [], written⟩

/-- The run of `__libc_println(handle, msg)` starting at primitive-call
index `i`; fuel `msg.length` is sufficient (proved below). -/
def printlnRun (prim : Nat → List Nat → Option Nat) (handle : Int) (i : Nat)
    (msg : List Nat) : SinkRun :=
  sinkLoop prim handle msg i 0 msg.length

/-- The value `__libc_println` returns to its caller: unconditionally
`Ok(())` (errors are swallowed by the loop). -/
def printlnRes (prim : Nat → List Nat → Option Nat) (handle : Int) (i : Nat)
    (msg : List Nat) : Except Unit Unit :=
  Except.ok ()

/-- `pub fn __libc_println(handle: i32, msg: &str) -> core::fmt::Result` -/
def __libc_println (prim : Nat → List Nat → Option Nat) (handle : Int)
    (msg : List Nat) : SinkRun × Except Unit Unit :=
  (printlnRun prim handle 0 msg, printlnRes prim handle 0 msg)

/-- `__LibCWriter::write_str(s)`: forwards to `__libc_println(self.0, s)`. -/
def __LibCWriter.write_str (w : __LibCWriter) (prim : Nat → List Nat → Option Nat)
    (i : Nat) (s : List Nat) : SinkRun × Except Unit Unit :=
  (printlnRun prim w.handle i s, printlnRes prim w.handle i s)

/-- `__LibCWriter::write_nl()`: forwards to
`__libc_println(self.0, __LIBC_NEWLINE)`. -/
def __LibCWriter.write_nl (w : __LibCWriter) (prim : Nat → List Nat → Option Nat)
    (i : Nat) : SinkRun × Except Unit Unit :=
  (printlnRun prim w.handle i __LIBC_NEWLINE, printlnRes prim w.handle i __LIBC_NEWLINE)

/-- The external formatting engine (`core::fmt::write`) drains a bounded
ordered list of text fragments into the sink, calling `write_str` on each
and stopping early if a fragment reports an error.  `i` is the global
primitive-call index, advanced past the calls each fragment's run issued. -/
def fmtWrite (prim : Nat → List Nat → Option Nat) (handle : Int) :
    Nat → List (List Nat) → List SinkRun
  | _, [] => []
  | i, f :: rest =>
    let r := printlnRun prim handle i f
    match printlnRes prim handle i f with
    | Except.ok _ => r :: fmtWrite prim handle (i + r.calls.length) rest
    | Except.error _ => [r]

/-- `__LibCWriter::write_fmt(args)`: the fragments the engine produces for
`args` are drained through `write_str`. -/
def __LibCWriter.write_fmt (w : __LibCWriter) (prim : Nat → List Nat → Option Nat)
    (i : Nat) (frags : List (List Nat)) : List SinkRun :=
  fmtWrite prim w.handle i frags

/-- The oracle for an OS that always accepts `min(requested, c)` bytes. -/
def constPrim (c : Nat) : Nat → List Nat → Option Nat :=
  fun _ s => some (min s.length c)

/-- Non-Windows `libc_write(handle, bytes)`: issues exactly one OS call
(recorded as the `(handle, requested length)` list) whose signed return is
`osRet`, and normalizes it via `usize::try_from(..).ok()`: negative
becomes `none`, non-negative `n` becomes `some n`. -/
def libc_write (handle : Int) (len : Nat) (osRet : Int) :
    List (Int × Nat) × Option Nat :=
  ([(handle, len)], if osRet < 0 then none else some osRet.toNat)

/-- `libc::c_uint::MAX` (32-bit unsigned). -/
def c_uint_MAX : Nat := 4294967295

/-- Windows `libc_write`: the length argument is
`c_uint::try_from(bytes.len()).unwrap_or(c_uint::MAX)`, i.e. the length
clamped to `c_uint::MAX`; the return is normalized as on other targets. -/
def libc_write_windows (handle : Int) (len : Nat) (osRet : Int) :
    List (Int × Nat) × Option Nat :=
  ([(handle, if len ≤ c_uint_MAX then len else c_uint_MAX)],
    if osRet < 0 then none else some osRet.toNat)

/-! ### Basic unfolding lemmas for the loop -/

theorem sinkLoop_zero (prim : Nat → List Nat → Option Nat) (handle : Int)
    (msg : List Nat) (i written : Nat) :
    sinkLoop prim handle msg i written 0 = ⟨[], [], written⟩ := rfl

theorem sinkLoop_succ (prim : Nat → List Nat → Option Nat) (handle : Int)
    (msg : List Nat) (i written fuel : Nat) :
    sinkLoop prim handle msg i written (fuel + 1) =
      if written < msg.length then
        match prim i (msg.drop written) with
        | none => ⟨[(handle, msg.drop written)], [], written⟩
        | some 0 => ⟨[(handle, msg.drop written)], [], written⟩
        | some (r + 1) =>
          let rest := sinkLoop prim handle msg (i + 1) (written + (r + 1)) fuel
          ⟨(handle, msg.drop written) :: rest.calls,
            (msg.drop written).take (r + 1) ++ rest.sent, rest.written⟩
      else ⟨[], [], written⟩ := rfl

theorem sinkLoop_done (prim : Nat → List Nat → Option Nat) (handle : Int)
    (msg : List Nat) (i written fuel : Nat) (hw : ¬ written < msg.length) :
    sinkLoop prim handle msg i written (fuel + 1) = ⟨[], [], written⟩ := by
  rw [sinkLoop_succ, if_neg hw]

theorem sinkLoop_break_none (prim : Nat → List Nat → Option Nat) (handle : Int)
    (msg : List Nat) (i written fuel : Nat) (hw : written < msg.length)
    (hp : prim i (msg.drop written) = none) :
    sinkLoop prim handle msg i written (fuel + 1) =
      ⟨[(handle, msg.drop written)], [], written⟩ := by
  rw [sinkLoop_succ, if_pos hw, hp]

theorem sinkLoop_break_zero (prim : Nat → List Nat → Option Nat) (handle : Int)
    (msg : List Nat) (i written fuel : Nat) (hw : written < msg.length)
    (hp : prim i (msg.drop written) = some 0) :
    sinkLoop prim handle msg i written (fuel + 1) =
      ⟨[(handle, msg.drop written)], [], written⟩ := by
  rw [sinkLoop_succ, if_pos hw, hp]

theorem sinkLoop_step (prim : Nat → List Nat → Option Nat) (handle : Int)
    (msg : List Nat) (i written fuel r : Nat) (hw : written < msg.length)
    (hp : prim i (msg.drop written) = some (r + 1)) :
    sinkLoop prim handle msg i written (fuel + 1) =
      ⟨(handle, msg.drop written) ::
          (sinkLoop prim handle msg (i + 1) (written + (r + 1)) fuel).calls,
        (msg.drop written).take (r + 1) ++
          (sinkLoop prim handle msg (i + 1) (written + (r + 1)) fuel).sent,
        (sinkLoop prim handle msg (i + 1) (written + (r + 1)) fuel).written⟩ := by
  rw [sinkLoop_succ, if_pos hw, hp]

/-- Fuel stability, one step: once the fuel covers the remaining bytes,
adding one more unit of fuel does not change the run.  (The loop never
needs more than `msg.length - written` iterations: each continuing
iteration advances the cursor by at least one.) -/
theorem sinkLoop_fuel_succ (prim : Nat → List Nat → Option Nat) (handle : Int)
    (msg : List Nat) :
    ∀ fuel i written, msg.length - written ≤ fuel →
      sinkLoop prim handle msg i written (fuel + 1) =
        sinkLoop prim handle msg i written fuel := by
  intro fuel
  induction fuel with
  | zero =>
    intro i written h
    have hw : ¬ written < msg.length := by omega
    rw [sinkLoop_succ, sinkLoop_zero, if_neg hw]
  | succ f ih =>
    intro i written h
    rw [sinkLoop_succ, sinkLoop_succ]
    by_cases hw : written < msg.length
    · rw [if_pos hw, if_pos hw]
      cases hp : prim i (msg.drop written) with
      | none => rfl
      | some n =>
        cases n with
        | zero => rfl
        | succ r =>
          have hb : msg.length - (written + (r + 1)) ≤ f := by omega
          simp only
          rw [ih (i + 1) (written + (r + 1)) hb]
    · rw [if_neg hw, if_neg hw]

/-- Fuel stability: any two sufficient fuels give the same run. -/
theorem sinkLoop_fuel_add (prim : Nat → List Nat → Option Nat) (handle : Int)
    (msg : List Nat) :
    ∀ extra fuel i written, msg.length - written ≤ fuel →
      sinkLoop prim handle msg i written (fuel + extra) =
        sinkLoop prim handle msg i written fuel := by
  intro extra
  induction extra with
  | zero => intro fuel i written _; rfl
  | succ e ih =>
    intro fuel i written h
    have h2 : msg.length - written ≤ fuel + e := by omega
    have step := sinkLoop_fuel_succ prim handle msg (fuel + e) i written h2
    exact step.trans (ih fuel i written h)

/-- The loop issues at most `fuel` primitive calls. -/
theorem sinkLoop_calls_le (prim : Nat → List Nat → Option Nat) (handle : Int)
    (msg : List Nat) :
    ∀ fuel i written,
      (sinkLoop prim handle msg i written fuel).calls.length ≤ fuel := by
  intro fuel
  induction fuel with
  | zero => intro i written; simp [sinkLoop_zero]
  | succ f ih =>
    intro i written
    rw [sinkLoop_succ]
    by_cases hw : written < msg.length
    · rw [if_pos hw]
      cases hp : prim i (msg.drop written) with
      | none => simp
      | some n =>
        cases n with
        | zero => simp
        | succ r =>
          simp only [List.length_cons]
          have := ih (i + 1) (written + (r + 1))
          omega
    · rw [if_neg hw]; simp

/-- The cursor never decreases. -/
theorem sinkLoop_written_mono (prim : Nat → List Nat → Option Nat) (handle : Int)
    (msg : List Nat) :
    ∀ fuel i written,
      written ≤ (sinkLoop prim handle msg i written fuel).written := by
  intro fuel
  induction fuel with
  | zero => intro i written; simp [sinkLoop_zero]
  | succ f ih =>
    intro i written
    rw [sinkLoop_succ]
    by_cases hw : written < msg.length
    · rw [if_pos hw]
      cases hp : prim i (msg.drop written) with
      | none => simp
      | some n =>
        cases n with
        | zero => simp
        | succ r =>
          simp only
          have := ih (i + 1) (written + (r + 1))
          omega
    · rw [if_neg hw]

/-- The bytes the primitive accepted are exactly the slice between the
initial and the final cursor: nothing is duplicated, dropped in the middle,
or reordered. -/
theorem sinkLoop_sent (prim : Nat → List Nat → Option Nat) (handle : Int)
    (msg : List Nat) :
    ∀ fuel i written,
      (sinkLoop prim handle msg i written fuel).sent =
        (msg.drop written).take
          ((sinkLoop prim handle msg i written fuel).written - written) := by
  intro fuel
  induction fuel with
  | zero => intro i written; simp [sinkLoop_zero]
  | succ f ih =>
    intro i written
    by_cases hw : written < msg.length
    · cases hp : prim i (msg.drop written) with
      | none => rw [sinkLoop_break_none prim handle msg i written f hw hp]; simp
      | some n =>
        cases n with
        | zero => rw [sinkLoop_break_zero prim handle msg i written f hw hp]; simp
        | succ r =>
          rw [sinkLoop_step prim handle msg i written f r hw hp]
          dsimp only
          have hmono := sinkLoop_written_mono prim handle msg f (i + 1) (written + (r + 1))
          have ihx := ih (i + 1) (written + (r + 1))
          have hsplit : (sinkLoop prim handle msg (i + 1) (written + (r + 1)) f).written
                - written =
              (r + 1) + ((sinkLoop prim handle msg (i + 1) (written + (r + 1)) f).written
                - (written + (r + 1))) := by omega
          rw [ihx, hsplit, List.take_add (msg.drop written) (r + 1) _, List.drop_drop]
    · rw [sinkLoop_done prim handle msg i written f hw]; simp

/-- Under the OS contract (never more accepted than requested), the cursor
never passes the end of the slice. -/
theorem sinkLoop_written_le (prim : Nat → List Nat → Option Nat) (handle : Int)
    (msg : List Nat) (Hle : ∀ i s r, prim i s = some r → r ≤ s.length) :
    ∀ fuel i written, written ≤ msg.length →
      (sinkLoop prim handle msg i written fuel).written ≤ msg.length := by
  intro fuel
  induction fuel with
  | zero => intro i written h; simpa [sinkLoop_zero] using h
  | succ f ih =>
    intro i written h
    rw [sinkLoop_succ]
    by_cases hw : written < msg.length
    · rw [if_pos hw]
      cases hp : prim i (msg.drop written) with
      | none => simpa using h
      | some n =>
        cases n with
        | zero => simpa using h
        | succ r =>
          simp only
          have hr := Hle i (msg.drop written) (r + 1) hp
          rw [List.length_drop] at hr
          exact ih (i + 1) (written + (r + 1)) (by omega)
    · rw [if_neg hw]; simpa using h

/-- If the run stops short of the end of the slice, the last primitive call
received exactly the unsent suffix (and reported no progress); no further
calls follow it. -/
theorem sinkLoop_last_call (prim : Nat → List Nat → Option Nat) (handle : Int)
    (msg : List Nat) :
    ∀ fuel i written, msg.length - written ≤ fuel →
      (sinkLoop prim handle msg i written fuel).written < msg.length →
      (sinkLoop prim handle msg i written fuel).calls.getLast? =
        some (handle, msg.drop (sinkLoop prim handle msg i written fuel).written) := by
  intro fuel
  induction fuel with
  | zero =>
    intro i written h hlt
    have hlt2 : written < msg.length := hlt
    exact absurd hlt2 (by omega)
  | succ f ih =>
    intro i written h hlt
    by_cases hw : written < msg.length
    · cases hp : prim i (msg.drop written) with
      | none =>
        rw [sinkLoop_break_none prim handle msg i written f hw hp]
        simp
      | some n =>
        cases n with
        | zero =>
          rw [sinkLoop_break_zero prim handle msg i written f hw hp]
          simp
        | succ r =>
          rw [sinkLoop_step prim handle msg i written f r hw hp] at hlt ⊢
          dsimp only at hlt ⊢
          have hb : msg.length - (written + (r + 1)) ≤ f := by omega
          have htail := ih (i + 1) (written + (r + 1)) hb hlt
          cases hc : (sinkLoop prim handle msg (i + 1) (written + (r + 1)) f).calls with
          | nil => rw [hc] at htail; simp at htail
          | cons b t =>
            rw [hc] at htail
            rw [List.getLast?_cons_cons]
            exact htail
    · rw [sinkLoop_done prim handle msg i written f hw] at hlt
      exact absurd hlt hw

/-- The sink's behaviour depends on the primitive's answer only through
"how many bytes of progress": an OS error (`none`) and a reported
zero-byte write (`some 0`) are treated identically (both terminate the
loop), and equal positive reports drive it identically. -/
theorem sinkLoop_congr (prim prim' : Nat → List Nat → Option Nat)
    (handle : Int) (msg : List Nat)
    (hpp : ∀ i s, (prim i s).getD 0 = (prim' i s).getD 0) :
    ∀ fuel i written,
      sinkLoop prim handle msg i written fuel =
        sinkLoop prim' handle msg i written fuel := by
  intro fuel
  induction fuel with
  | zero => intro i written; rfl
  | succ f ih =>
    intro i written
    rw [sinkLoop_succ, sinkLoop_succ]
    by_cases hw : written < msg.length
    · rw [if_pos hw, if_pos hw]
      have hd := hpp i (msg.drop written)
      cases hp : prim i (msg.drop written) with
      | none =>
        cases hp' : prim' i (msg.drop written) with
        | none => rfl
        | some m =>
          rw [hp, hp'] at hd
          simp at hd
          subst hd
          rfl
      | some n =>
        cases hp' : prim' i (msg.drop written) with
        | none =>
          rw [hp, hp'] at hd
          simp at hd
          subst hd
          rfl
        | some m =>
          rw [hp, hp'] at hd
          simp at hd
          subst hd
          cases n with
          | zero => rfl
          | succ r => simp only; rw [ih (i + 1) (written + (r + 1))]
    · rw [if_neg hw, if_neg hw]

/-- Ceiling-division bookkeeping: consuming `min n c` of `n ≥ 1` remaining
bytes costs exactly one of the `⌈n/c⌉` calls. -/
theorem ceilDiv_step (n c : Nat) (hc : 1 ≤ c) (hn : 1 ≤ n) :
    (n + c - 1) / c = (n - min n c + c - 1) / c + 1 := by
  rcases Nat.le_total n c with hnc | hcn
  · rw [Nat.min_eq_left hnc, Nat.sub_self]
    have h1 : (0 + c - 1) / c = 0 := Nat.div_eq_of_lt (by omega)
    rw [h1]
    have h2 : n + c - 1 = (n - 1) + c := by omega
    rw [h2, Nat.add_div_right _ (by omega)]
    have h3 : (n - 1) / c = 0 := Nat.div_eq_of_lt (by omega)
    omega
  · rw [Nat.min_eq_right hcn]
    have hm : n - c + c - 1 = n - 1 := by omega
    rw [hm]
    have h2 : n + c - 1 = (n - 1) + c := by omega
    rw [h2, Nat.add_div_right _ (by omega)]

/-- A primitive that always accepts `min(requested, c)` bytes (`c ≥ 1`)
drives the loop deterministically: `⌈(L - written)/c⌉` calls, the `j`-th
receiving the suffix at offset `written + j·c`, transmitting everything. -/
theorem sinkLoop_constPrim (msg : List Nat) (c : Nat) (hc : 1 ≤ c) (handle : Int) :
    ∀ fuel i written, written ≤ msg.length → msg.length - written ≤ fuel →
      sinkLoop (constPrim c) handle msg i written fuel =
        ⟨(List.range ((msg.length - written + c - 1) / c)).map
            (fun j => (handle, msg.drop (written + j * c))),
          msg.drop written, msg.length⟩ := by
  intro fuel
  induction fuel with
  | zero =>
    intro i written hwle h
    have h1 : msg.length - written = 0 := by omega
    rw [sinkLoop_zero, h1]
    have h0 : (0 + c - 1) / c = 0 := Nat.div_eq_of_lt (by omega)
    rw [h0]
    have h2 : msg.drop written = [] := List.drop_eq_nil_of_le (by omega)
    rw [h2]
    simp only [List.range_zero, List.map_nil]
    congr 1
    omega
  | succ f ih =>
    intro i written hwle h
    by_cases hlt : written < msg.length
    · have hmin1 : 1 ≤ min (msg.length - written) c := le_min (by omega) hc
      obtain ⟨r, hr⟩ : ∃ r, min (msg.length - written) c = r + 1 :=
        ⟨min (msg.length - written) c - 1, (Nat.succ_pred_eq_of_pos hmin1).symm⟩
      have hrlen : r + 1 ≤ msg.length - written := by
        rw [← hr]; exact min_le_left _ _
      have hp : constPrim c i (msg.drop written) = some (r + 1) := by
        simp only [constPrim, List.length_drop]
        rw [hr]
      rw [sinkLoop_step (constPrim c) handle msg i written f r hlt hp]
      rw [ih (i + 1) (written + (r + 1)) (by omega) (by omega)]
      have hstep := ceilDiv_step (msg.length - written) c hc (by omega)
      rw [hr, Nat.sub_sub] at hstep
      simp only [SinkRun.mk.injEq]
      refine ⟨?_, ?_, trivial⟩
      · rw [hstep, List.range_succ_eq_map, List.map_cons, List.map_map]
        congr 1
        · simp
        · rcases Nat.le_total (msg.length - written) c with hnc | hcn
          · have hminl : min (msg.length - written) c = msg.length - written :=
              Nat.min_eq_left hnc
            have h5 : r + 1 = msg.length - written := by rw [← hr, hminl]
            have hq : msg.length - (written + (r + 1)) = 0 := by omega
            rw [hq]
            have h0 : (0 + c - 1) / c = 0 := Nat.div_eq_of_lt (by omega)
            rw [h0]
            rfl
          · have hcr : c = r + 1 := by rw [← hr, Nat.min_eq_right hcn]
            apply List.map_congr_left
            intro j hj
            simp only [Function.comp_apply]
            have hix : written + (r + 1) + j * c = written + (j + 1) * c := by
              rw [hcr]; ring
            rw [hix]
      · conv_rhs => rw [← List.take_append_drop (r + 1) (msg.drop written)]
        congr 1
        rw [List.drop_drop]
    · have h1 : msg.length - written = 0 := by omega
      rw [sinkLoop_done (constPrim c) handle msg i written f hlt, h1]
      have h0 : (0 + c - 1) / c = 0 := Nat.div_eq_of_lt (by omega)
      rw [h0]
      have h2 : msg.drop written = [] := List.drop_eq_nil_of_le (by omega)
      rw [h2]
      simp only [List.range_zero, List.map_nil]
      congr 1
      omega

/-! ### Call-site dispatch models: `libc_dbg!` and the print macros -/

/-- `format_args!("[{}:{}] {} = {:#?}", file!(), line!(), stringify!($val), &tmp)`:
the formatted line of the one-expression `libc_dbg!` arm, as bytes
(`91 = '['`, `58 = ':'`, `93 = ']'`, `32 = ' '`, `61 = '='`). -/
def dbgFormat (file line exprTxt val : List Nat) : List Nat :=
  [91] ++ file ++ [58] ++ line ++ [93, 32] ++ exprTxt ++ [32, 61, 32] ++ val

/-- `libc_eprintln!` emission shape: one formatted payload written to the
standard-error stream, then one newline written to the same stream. -/
def libc_eprintln_emit (s : List Nat) : List (Int × List Nat) :=
  [(__LIBC_STDERR, s), (__LIBC_STDERR, __LIBC_NEWLINE)]

/-- The one-expression arm of `libc_dbg!`:
`match $val { tmp => { libc_eprintln!("[{}:{}] {} = {:#?}", file!(), line!(), stringify!($val), &tmp); tmp } }`.
`file`, `line`, `exprTxt` are the compile-time annotation bytes, `pretty`
the external `{:#?}` Debug formatter of the value's type.  Yields the
emissions and the value handed back unchanged. -/
def libc_dbg1 {α : Type} (file line exprTxt : List Nat) (pretty : α → List Nat)
    (v : α) : List (Int × List Nat) × α :=
  (libc_eprintln_emit (dbgFormat file line exprTxt (pretty v)), v)

/-- The multi-expression arm `($($val:expr),+ $(,)?) => ($(libc_dbg!($val)),+,)`
at arity two: the two single-expression expansions evaluated left to
right, emissions concatenated in that order, values paired in order. -/
def libc_dbg2 {α β : Type} (file line : List Nat)
    (ea : List Nat) (pa : α → List Nat) (va : α)
    (eb : List Nat) (pb : β → List Nat) (vb : β) :
    List (Int × List Nat) × (α × β) :=
  ((libc_dbg1 file line ea pa va).1 ++ (libc_dbg1 file line eb pb vb).1,
    ((libc_dbg1 file line ea pa va).2, (libc_dbg1 file line eb pb vb).2))

/-- The multi-expression arm at arbitrary arity for expressions of one
type (a list stands in for the heterogeneous tuple): each item carries its
expression text and value, processed left to right. -/
def libc_dbgN {α : Type} (file line : List Nat) (pretty : α → List Nat) :
    List (List Nat × α) → List (Int × List Nat) × List α
  | [] => ([], [])
  | it :: rest =>
    ((libc_dbg1 file line it.1 pretty it.2).1 ++
        (libc_dbgN file line pretty rest).1,
      (libc_dbg1 file line it.1 pretty it.2).2 ::
        (libc_dbgN file line pretty rest).2)

/-- Metavariables bound by the matcher of the zero-expression `libc_dbg!`
arm `() => { ... }`: none. -/
def libc_dbg_zero_matcher_binders : List String := []

/-- Metavariables the zero-expression arm's transcriber references:
it is written `$crate::libc_eprintln!("[{}:{}]", $file!(), $line!())`, so
(apart from the always-available `$crate`) it references `$file` and
`$line`. -/
def libc_dbg_zero_transcriber_metavars : List String := ["file", "line"]

/-- Metavariables bound by the matcher of the one-expression arm
`($val:expr $(,)?)`: just `val`. -/
def libc_dbg_one_matcher_binders : List String := ["val"]

/-- Metavariables the one-expression arm's transcriber references: only
`$val` (it invokes `file!()` / `line!()` / `stringify!($val)` plainly). -/
def libc_dbg_one_transcriber_metavars : List String := ["val"]

/-- A `macro_rules` arm only expands when every metavariable its
transcriber references is bound by its matcher. -/
def macroArmWellFormed (binders metavars : List String) : Bool :=
  metavars.all (fun v => binders.contains v)

/-- Writer constructed by `libc_print!`: `__LibCWriter::new(__LIBC_STDOUT)`. -/
def libc_print_writer : __LibCWriter := __LibCWriter.new __LIBC_STDOUT

/-- Writer constructed by `libc_println!`. -/
def libc_println_writer : __LibCWriter := __LibCWriter.new __LIBC_STDOUT

/-- Writer constructed by `libc_write!`. -/
def libc_write_writer : __LibCWriter := __LibCWriter.new __LIBC_STDOUT

/-- Writer constructed by `libc_writeln!`. -/
def libc_writeln_writer : __LibCWriter := __LibCWriter.new __LIBC_STDOUT

/-- Writer constructed by `libc_eprint!`. -/
def libc_eprint_writer : __LibCWriter := __LibCWriter.new __LIBC_STDERR

/-- Writer constructed by `libc_eprintln!`. -/
def libc_eprintln_writer : __LibCWriter := __LibCWriter.new __LIBC_STDERR

/-- Writer constructed by `libc_ewrite!`. -/
def libc_ewrite_writer : __LibCWriter := __LibCWriter.new __LIBC_STDERR

/-- Writer constructed by `libc_ewriteln!`. -/
def libc_ewriteln_writer : __LibCWriter := __LibCWriter.new __LIBC_STDERR

/-- Writer constructed by `libc_dbg!` (it expands to `libc_eprintln!`). -/
def libc_dbg_writer : __LibCWriter := libc_eprintln_writer

/-- Every fragment handed to the engine is attempted: since
`__libc_println` always answers `Ok(())`, the engine never stops early. -/
theorem fmtWrite_length (prim : Nat → List Nat → Option Nat) (handle : Int) :
    ∀ i frags, (fmtWrite prim handle i frags).length = frags.length := by
  intro i frags
  induction frags generalizing i with
  | nil => rfl
  | cons f rest ih =>
    show (printlnRun prim handle i f ::
      fmtWrite prim handle (i + (printlnRun prim handle i f).calls.length) rest).length =
        rest.length + 1
    rw [List.length_cons, ih]

/-! ### The claims -/

/-- C1: for every byte slice of length `L` (including `L = 0`) and every
`c ≥ 1`, a Raw Write Primitive that always accepts `min(requested, c)`
bytes makes the Retrying Sink (`__libc_println`) issue exactly `⌈L/c⌉`
primitive calls, the `j`-th (counting from 0) receiving the suffix at
offset `j·c`, transmitting all `L` bytes in order with no duplicated or
reordered bytes, and reporting completion (`Ok`). -/
theorem claim_C1 (handle : Int) (msg : List Nat) (c : Nat) (hc : 1 ≤ c) :
    (__libc_println (constPrim c) handle msg).1.calls.length =
        (msg.length + c - 1) / c ∧
    (__libc_println (constPrim c) handle msg).1.calls =
        (List.range ((msg.length + c - 1) / c)).map
          (fun j => (handle, msg.drop (j * c))) ∧
    (__libc_println (constPrim c) handle msg).1.sent = msg ∧
    (__libc_println (constPrim c) handle msg).1.written = msg.length ∧
    (__libc_println (constPrim c) handle msg).2 = Except.ok () := by
  have hrun := sinkLoop_constPrim msg c hc handle msg.length 0 0 (by omega) (by omega)
  simp only [Nat.sub_zero, Nat.zero_add, List.drop_zero] at hrun
  have h1 : (__libc_println (constPrim c) handle msg).1 =
      sinkLoop (constPrim c) handle msg 0 0 msg.length := rfl
  rw [h1, hrun]
  refine ⟨by simp, rfl, rfl, rfl, rfl⟩

/-- C1 witness: writing "ab" (bytes `[97, 98]`) through a primitive that
accepts one byte per call issues exactly two calls, first on "ab", then on
"b", transmits both bytes, and reports completion. -/
theorem claim_C1_witness :
    (__libc_println (constPrim 1) __LIBC_STDOUT [97, 98]).1.calls =
      [(1, [97, 98]), (1, [98])] ∧
    (__libc_println (constPrim 1) __LIBC_STDOUT [97, 98]).1.calls.length = 2 ∧
    (__libc_println (constPrim 1) __LIBC_STDOUT [97, 98]).1.sent = [97, 98] ∧
    (__libc_println (constPrim 1) __LIBC_STDOUT [97, 98]).2 = Except.ok () := by
  have h := claim_C1 __LIBC_STDOUT [97, 98] 1 (by decide)
  refine ⟨?_, ?_, h.2.2.1, h.2.2.2.2⟩
  · rw [h.2.1]; decide
  · rw [h.1]; decide

/-- C2: whatever the primitive does (within the OS contract of never
accepting more than requested), `__libc_println` returns `Ok` with no
error surfaced, has transmitted exactly the first `written ≤ L` bytes
when it stops, and if it stopped short of `L` the last primitive call —
after which no further calls occur — received the suffix at the stopping
point; and the engine still attempts every subsequent fragment (one run
per fragment, none skipped). -/
theorem claim_C2 (prim : Nat → List Nat → Option Nat) (handle : Int)
    (msg : List Nat) (Hle : ∀ i s r, prim i s = some r → r ≤ s.length) :
    (__libc_println prim handle msg).2 = Except.ok () ∧
    (__libc_println prim handle msg).1.written ≤ msg.length ∧
    (__libc_println prim handle msg).1.sent =
      msg.take (__libc_println prim handle msg).1.written ∧
    ((__libc_println prim handle msg).1.written < msg.length →
      (__libc_println prim handle msg).1.calls.getLast? =
        some (handle, msg.drop (__libc_println prim handle msg).1.written)) ∧
    (∀ i frags, (fmtWrite prim handle i frags).length = frags.length) := by
  have h1 : (__libc_println prim handle msg).1 =
      sinkLoop prim handle msg 0 0 msg.length := rfl
  refine ⟨rfl, ?_, ?_, ?_, fmtWrite_length prim handle⟩
  · rw [h1]
    exact sinkLoop_written_le prim handle msg Hle msg.length 0 0 (by omega)
  · rw [h1]
    have hs := sinkLoop_sent prim handle msg msg.length 0 0
    simpa using hs
  · rw [h1]
    intro hlt
    exact sinkLoop_last_call prim handle msg msg.length 0 0 (by omega) hlt

/-- C2 witness: a primitive reporting zero progress at once on "ab" stops
with nothing transmitted, its one and only call on the whole slice,
returns `Ok`, and a two-fragment formatted write still attempts both
fragments. -/
theorem claim_C2_witness :
    (__libc_println (fun _ _ => some 0) 1 [97, 98]).1.calls.getLast? =
      some ((1 : Int), [97, 98]) ∧
    (__libc_println (fun _ _ => some 0) 1 [97, 98]).1.sent = [] ∧
    (__libc_println (fun _ _ => some 0) 1 [97, 98]).2 = Except.ok () ∧
    (fmtWrite (fun _ _ => some 0) 1 0 [[97], [98]]).length = 2 := by
  have h := claim_C2 (fun _ _ => some 0) 1 [97, 98]
    (by intro i s r hh; injection hh with h2; omega)
  have hw0 : (__libc_println (fun _ _ => some 0) 1 [97, 98]).1.written = 0 := by
    decide
  refine ⟨?_, ?_, h.1, ?_⟩
  · have h4 := h.2.2.2.1 (by decide)
    rw [hw0] at h4
    simpa using h4
  · have h3 := h.2.2.1
    rw [hw0] at h3
    simpa using h3
  · have h5 := h.2.2.2.2 0 [[97], [98]]
    simpa using h5

/-- C3: the retry loop terminates for every primitive behaviour within the
OS contract: fuel `L` (our embedding of "at most `L` iterations") is
sufficient — any extra fuel leaves the run unchanged — the run issues at
most `L` primitive calls, and the cursor never decreases. -/
theorem claim_C3 (prim : Nat → List Nat → Option Nat) (handle : Int)
    (msg : List Nat) (Hle : ∀ i s r, prim i s = some r → r ≤ s.length) :
    (∀ extra, sinkLoop prim handle msg 0 0 (msg.length + extra) =
      sinkLoop prim handle msg 0 0 msg.length) ∧
    (__libc_println prim handle msg).1.calls.length ≤ msg.length ∧
    (∀ i written fuel,
      written ≤ (sinkLoop prim handle msg i written fuel).written) := by
  refine ⟨?_, ?_, ?_⟩
  · intro extra
    exact sinkLoop_fuel_add prim handle msg extra msg.length 0 0 (by omega)
  · exact sinkLoop_calls_le prim handle msg msg.length 0 0
  · intro i written fuel
    exact sinkLoop_written_mono prim handle msg fuel i written

/-- C3 witness: on the two-byte slice `[7, 8]` with a fully-accepting
primitive, extra fuel changes nothing and at most two calls are issued. -/
theorem claim_C3_witness :
    sinkLoop (fun _ s => some s.length) 1 [7, 8] 0 0 (2 + 3) =
      sinkLoop (fun _ s => some s.length) 1 [7, 8] 0 0 2 ∧
    (__libc_println (fun _ s => some s.length) 1 [7, 8]).1.calls.length ≤ 2 := by
  have h := claim_C3 (fun _ s => some s.length) 1 [7, 8]
    (by intro i s r hh; injection hh with h2; omega)
  exact ⟨h.1 3, h.2.1⟩

/-- C4: `libc_write` issues exactly one OS write call per invocation, with
the caller's handle and requested length; a negative signed return is
normalized to `none` ("no progress"), a non-negative return `n` to
`some n` (and `n ≤ requested` whenever the OS respects its contract); and
the calling sink treats `none` and `some 0` identically — its behaviour
depends only on the progress count, with no retry of the primitive itself
and no error inspection. -/
theorem claim_C4 (handle : Int) (len : Nat) (osRet : Int) :
    (libc_write handle len osRet).1.length = 1 ∧
    (libc_write handle len osRet).1 = [(handle, len)] ∧
    (osRet < 0 → (libc_write handle len osRet).2 = none) ∧
    (0 ≤ osRet → (libc_write handle len osRet).2 = some osRet.toNat) ∧
    (0 ≤ osRet → osRet ≤ (len : Int) →
      ∃ n, (libc_write handle len osRet).2 = some n ∧ n ≤ len) ∧
    (∀ prim prim' : Nat → List Nat → Option Nat, ∀ msg : List Nat,
      ∀ i w fuel,
      (∀ j s, (prim j s).getD 0 = (prim' j s).getD 0) →
      sinkLoop prim handle msg i w fuel = sinkLoop prim' handle msg i w fuel) := by
  refine ⟨rfl, rfl, ?_, ?_, ?_, ?_⟩
  · intro h
    simp [libc_write, h]
  · intro h
    simp [libc_write, not_lt.mpr h]
  · intro h1 h2
    refine ⟨osRet.toNat, ?_, ?_⟩
    · simp [libc_write, not_lt.mpr h1]
    · omega
  · intro prim prim' msg i w fuel hpp
    exact sinkLoop_congr prim prim' handle msg hpp fuel i w

/-- C4 witness: an OS return of `-1` on a three-byte request normalizes to
"no progress", an OS return of `2` to "2 bytes accepted". -/
theorem claim_C4_witness :
    (libc_write 1 3 (-1)).2 = none ∧ (libc_write 1 3 2).2 = some 2 := by
  have ha := claim_C4 1 3 (-1)
  have hb := claim_C4 1 3 2
  refine ⟨ha.2.2.1 (by decide), ?_⟩
  have h2 := hb.2.2.2.1 (by decide)
  simpa using h2

/-- C5: the one-expression `libc_dbg!` emits the source-location
annotation, the expression text, and the pretty-formatted value to the
error stream with a trailing newline, and yields the evaluated value
unchanged; with several expressions it applies the single-expression
behaviour to each left to right (emissions concatenated in order) and
yields the tuple of their values in the original order. -/
theorem claim_C5 {α β : Type} (file line ea eb : List Nat)
    (pa : α → List Nat) (pb : β → List Nat) (va : α) (vb : β) :
    (libc_dbg1 file line ea pa va).2 = va ∧
    (libc_dbg1 file line ea pa va).1 =
      [(__LIBC_STDERR, dbgFormat file line ea (pa va)),
        (__LIBC_STDERR, [10])] ∧
    dbgFormat file line ea (pa va) =
      [91] ++ file ++ [58] ++ line ++ [93, 32] ++ ea ++ [32, 61, 32] ++ pa va ∧
    (libc_dbg2 file line ea pa va eb pb vb).2 = (va, vb) ∧
    (libc_dbg2 file line ea pa va eb pb vb).1 =
      (libc_dbg1 file line ea pa va).1 ++ (libc_dbg1 file line eb pb vb).1 ∧
    (∀ (pretty : α → List Nat) (items : List (List Nat × α)),
      (libc_dbgN file line pretty items).2 = items.map Prod.snd ∧
      (libc_dbgN file line pretty items).1 =
        (items.map (fun it => (libc_dbg1 file line it.1 pretty it.2).1)).flatten) := by
  refine ⟨rfl, rfl, rfl, rfl, rfl, ?_⟩
  intro pretty items
  induction items with
  | nil => exact ⟨rfl, rfl⟩
  | cons it rest ih =>
    refine ⟨?_, ?_⟩
    · show (libc_dbg1 file line it.1 pretty it.2).2 ::
        (libc_dbgN file line pretty rest).2 = it.2 :: rest.map Prod.snd
      rw [ih.1]
      rfl
    · show (libc_dbg1 file line it.1 pretty it.2).1 ++
        (libc_dbgN file line pretty rest).1 = _
      rw [ih.2, List.map_cons, List.flatten_cons]

/-- C6 (code bug): the zero-expression arm of `libc_dbg!` cannot emit the
annotation at all: its transcriber is written
`$crate::libc_eprintln!("[{}:{}]", $file!(), $line!())`, referencing the
metavariables `file` and `line` which its matcher `()` does not bind, so
the arm fails to expand (the one-expression arm, which calls plain
`file!()` / `line!()`, is well formed, showing the intent). -/
theorem claim_C6_bug :
    macroArmWellFormed libc_dbg_zero_matcher_binders
      libc_dbg_zero_transcriber_metavars = false ∧
    macroArmWellFormed libc_dbg_one_matcher_binders
      libc_dbg_one_transcriber_metavars = true := by
  exact ⟨rfl, rfl⟩

/-- C7: for a template with no substitutions the literal fast path
(`write_str`) and the formatting-engine path (`write_fmt` on the single
fragment the engine produces) are the same single sink run — byte-identical
output (same transmitted bytes, same primitive calls on the same stream). -/
theorem claim_C7 (prim : Nat → List Nat → Option Nat) (i : Nat)
    (s : List Nat) (w : __LibCWriter) :
    w.write_fmt prim i [s] = [(w.write_str prim i s).1] ∧
    ((w.write_fmt prim i [s]).map SinkRun.sent).flatten =
      (w.write_str prim i s).1.sent ∧
    ((w.write_fmt prim i [s]).map SinkRun.calls).flatten =
      (w.write_str prim i s).1.calls := by
  refine ⟨rfl, ?_, ?_⟩ <;>
    simp [__LibCWriter.write_fmt, fmtWrite, printlnRun, printlnRes,
      __LibCWriter.write_str]

/-- C8: on the Windows branch the requested length is clamped to
`c_uint::MAX` before the OS call — a longer slice yields a request of
exactly `c_uint::MAX` (no out-of-range value, no failure), so at most
`c_uint::MAX` bytes can be accepted. -/
theorem claim_C8 (handle : Int) (len : Nat) (osRet : Int) :
    (c_uint_MAX < len →
      (libc_write_windows handle len osRet).1 = [(handle, c_uint_MAX)]) ∧
    (libc_write_windows handle len osRet).1 = [(handle, min len c_uint_MAX)] ∧
    (∀ p ∈ (libc_write_windows handle len osRet).1, p.2 ≤ c_uint_MAX) := by
  refine ⟨?_, ?_, ?_⟩
  · intro h
    show [(handle, if len ≤ c_uint_MAX then len else c_uint_MAX)] = _
    rw [if_neg (by omega)]
  · show [(handle, if len ≤ c_uint_MAX then len else c_uint_MAX)] = _
    rw [Nat.min_def]
  · intro p hp
    simp only [libc_write_windows, List.mem_singleton] at hp
    subst hp
    show (if len ≤ c_uint_MAX then len else c_uint_MAX) ≤ c_uint_MAX
    split <;> omega

/-- C8 witness: a slice one byte longer than `c_uint::MAX` produces an OS
request of exactly `c_uint::MAX` bytes. -/
theorem claim_C8_witness :
    (libc_write_windows 1 4294967296 5).1 = [(1, 4294967295)] := by
  have h := claim_C8 1 4294967296 5
  exact h.1 (by decide)

/-- C9: the two Stream Identities are the fixed integers 1 (standard
output) and 2 (standard error); every output-stream macro variant
constructs its writer with identity 1 and every error-stream variant
(including `libc_dbg!`) with identity 2. -/
theorem claim_C9 :
    __LIBC_STDOUT = 1 ∧ __LIBC_STDERR = 2 ∧
    libc_print_writer.handle = 1 ∧ libc_println_writer.handle = 1 ∧
    libc_write_writer.handle = 1 ∧ libc_writeln_writer.handle = 1 ∧
    libc_eprint_writer.handle = 2 ∧ libc_eprintln_writer.handle = 2 ∧
    libc_ewrite_writer.handle = 2 ∧ libc_ewriteln_writer.handle = 2 ∧
    libc_dbg_writer.handle = 2 :=
  ⟨rfl, rfl, rfl, rfl, rfl, rfl, rfl, rfl, rfl, rfl, rfl⟩

/-- C10: `write_nl` routes exactly the single newline byte `"\n"` through
the same retry algorithm (`__libc_println`) and nothing else: its one
primitive call requests exactly `[10]`, and what is transmitted is either
nothing (no progress) or exactly the newline byte. -/
theorem claim_C10 (prim : Nat → List Nat → Option Nat) (i : Nat)
    (w : __LibCWriter) :
    (w.write_nl prim i).1 = printlnRun prim w.handle i __LIBC_NEWLINE ∧
    __LIBC_NEWLINE = [10] ∧
    (w.write_nl prim i).1.calls = [(w.handle, [10])] ∧
    ((w.write_nl prim i).1.sent = [] ∨ (w.write_nl prim i).1.sent = [10]) ∧
    (w.write_nl prim i).2 = Except.ok () := by
  have hrun : (w.write_nl prim i).1 = sinkLoop prim w.handle [10] i 0 1 := rfl
  cases hp : prim i [10] with
  | none =>
    have hb := sinkLoop_break_none prim w.handle [10] i 0 0 (by decide) hp
    refine ⟨rfl, rfl, ?_, Or.inl ?_, rfl⟩
    · rw [hrun, hb]; rfl
    · rw [hrun, hb]
  | some n =>
    cases n with
    | zero =>
      have hb := sinkLoop_break_zero prim w.handle [10] i 0 0 (by decide) hp
      refine ⟨rfl, rfl, ?_, Or.inl ?_, rfl⟩
      · rw [hrun, hb]; rfl
      · rw [hrun, hb]
    | succ r =>
      have hb := sinkLoop_step prim w.handle [10] i 0 0 r (by decide) hp
      refine ⟨rfl, rfl, ?_, Or.inr ?_, rfl⟩
      · rw [hrun, hb]
        simp [sinkLoop_zero]
      · rw [hrun, hb]
        simp [sinkLoop_zero]

end LibcPrint
